import Mathlib

set_option linter.unusedVariables false

/-!
# Verification of the DDPM diffusion numeric engine

Shallow embedding of `diffusion_mnist_denoising.py`: the noise-schedule
constructor, coefficient extraction, the forward corruption process
(`make_noisy`), one reverse-sampling transition (`denoise_at_t`), the
boundary rescaling helpers, and the SSIM score.

Modelling conventions:
* Floating-point tensors are modelled over the exact reals `ℝ`.
* A 4-D image batch `[N, C, H, W]` is modelled as a function
  `ℕ → ℕ → ℕ → ℕ → ℝ` (sample, channel, row, column); elementwise tensor
  operations act pointwise.
* Random draws (`torch.randn_like`, `torch.randn`) are injected as explicit
  arguments, so every operation is a pure function of its inputs.
* The external denoiser network (`self.model`) is a field of the `Diffusion`
  structure, an opaque function from an image batch and a timestep batch to
  an image batch.
* `.detach()` is the identity on values (it only severs gradient tracking).
-/

namespace DDPM

noncomputable section

/-- A 4-D image batch `[N, C, H, W]`, indexed by (sample, channel, row, col). -/
abbrev Img : Type := ℕ → ℕ → ℕ → ℕ → ℝ

/-- The all-one image batch, used as a concrete noise draw. -/
def onesImg : Img := fun _ _ _ _ => 1

/-- The all-zero image batch (`torch.zeros_like`). -/
def zerosImg : Img := fun _ _ _ _ => 0

/-- Model of `torch.cumprod(l, dim=0)`: left-to-right cumulative products. -/
def cumprod : List ℝ → List ℝ
  | [] => []
  | a :: l => a :: (cumprod l).map (a * ·)

/-- Model of `torch.linspace(start, end, steps)`: `steps` evenly spaced values from
`start` to `end` (with `steps = 1` giving `[start]`). -/
def linspace (a b : ℝ) (steps : ℕ) : List ℝ :=
  if steps = 1 then [a]
  else (List.range steps).map (fun i : ℕ => a + (i : ℝ) * (b - a) / ((steps : ℝ) - 1))

/-- Model of `torch.clamp(x, lo, hi)`. -/
def clampR (x lo hi : ℝ) : ℝ := min (max x lo) hi

/-- A `[N, 1, ..., 1]`-shaped (or 1-D) real tensor: its shape together with its
flattened data, row-major. -/
structure Tensor where
  shape : List ℕ
  data : List ℝ

/-- The `Diffusion` module state set up by `Diffusion.__init__`
(source lines 56-71): the external denoiser network plus the precomputed
noise-schedule arrays. `betas` and `alpha_bars` are locals of the
constructor, so only the derived arrays are stored, exactly as in the
source. -/
structure Diffusion where
  model : Img → List ℕ → Img
  n_times : ℕ
  sqrt_betas : List ℝ
  alphas : List ℝ
  sqrt_alphas : List ℝ
  sqrt_one_minus_alpha_bars : List ℝ
  sqrt_alpha_bars : List ℝ

/-- Model of `Diffusion.__init__(model, n_times, beta_minmax=[beta_1, beta_T])`:
`betas = linspace(beta_1, beta_T, n_times)`, `alphas = 1 - betas`,
`alpha_bars = cumprod(alphas)`, and the four square-root arrays. -/
def Diffusion.init (model : Img → List ℕ → Img) (beta_1 beta_T : ℝ) (n_times : ℕ) :
    Diffusion :=
  let betas := linspace beta_1 beta_T n_times
  let alphas := betas.map (fun b => 1 - b)
  let alpha_bars := cumprod alphas
  { model := model
    n_times := n_times
    sqrt_betas := betas.map Real.sqrt
    alphas := alphas
    sqrt_alphas := alphas.map Real.sqrt
    sqrt_one_minus_alpha_bars := alpha_bars.map (fun x => Real.sqrt (1 - x))
    sqrt_alpha_bars := alpha_bars.map Real.sqrt }

/-- The constructor body performs no hyperparameter validation and raises no
exception, so construction always completes with `.ok`. -/
def Diffusion.tryInit (model : Img → List ℕ → Img) (beta_1 beta_T : ℝ) (n_times : ℕ) :
    Except String Diffusion :=
  .ok (Diffusion.init model beta_1 beta_T n_times)

/-- Model of `Diffusion.extract(a, t, x_shape)` (source lines 83-86):
`a.gather(-1, t)` followed by `reshape(b, 1, ..., 1)` with
`len(x_shape) - 1` trailing singleton dimensions. -/
def Diffusion.extract (a : List ℝ) (t : List ℕ) (x_shape : List ℕ) : Tensor :=
  { shape := t.length :: List.replicate (x_shape.length - 1) 1
    data := t.map (fun i => a.getD i 0) }

/-- Broadcasting an `[N, 1, 1, 1]` tensor against an `[N, C, H, W]` batch
reads entry `n` of its data at every position of sample `n`. -/
def bval (tt : Tensor) (n : ℕ) : ℝ := tt.data.getD n 0

/-- Model of `Diffusion.scale_to_minus_one_to_one` (source lines 88-89). -/
def Diffusion.scale_to_minus_one_to_one (x : Img) : Img :=
  fun n c h w => x n c h w * 2 - 1

/-- Model of `Diffusion.reverse_scale_to_zero_to_one` (source lines 91-92). -/
def Diffusion.reverse_scale_to_zero_to_one (x : Img) : Img :=
  fun n c h w => (x n c h w + 1) * 0.5

/-- Model of `Diffusion.make_noisy(x_zeros, t)` (source lines 94-99), with the
`torch.randn_like` draw injected as `epsilon` and `x_zeros.shape` passed as
`x_shape`. Returns `(noisy_sample.detach(), epsilon)`. -/
def Diffusion.make_noisy (d : Diffusion) (x_zeros : Img) (t : List ℕ) (epsilon : Img)
    (x_shape : List ℕ) : Img × Img :=
  let sqrt_alpha_bar := Diffusion.extract d.sqrt_alpha_bars t x_shape
  let sqrt_one_minus_alpha_bar := Diffusion.extract d.sqrt_one_minus_alpha_bars t x_shape
  (fun n c h w =>
      x_zeros n c h w * bval sqrt_alpha_bar n + epsilon n c h w * bval sqrt_one_minus_alpha_bar n,
    epsilon)

/-- The injected reverse-process noise `z` (source lines 111-114): the
`torch.randn_like` draw `zdraw` when `t > 1`, the all-zero tensor otherwise. -/
def zLike (t : ℕ) (zdraw : Img) : Img :=
  if 1 < t then zdraw else zerosImg

/-- Model of `Diffusion.denoise_at_t(x_t, timestep, t)` (source lines 109-121), with
the `torch.randn_like` draw injected as `zdraw` and `x_t.shape` passed as
`x_shape`. -/
def Diffusion.denoise_at_t (d : Diffusion) (x_t : Img) (timestep : List ℕ) (t : ℕ)
    (zdraw : Img) (x_shape : List ℕ) : Img :=
  let z := zLike t zdraw
  let epsilon_pred := d.model x_t timestep
  let alpha := Diffusion.extract d.alphas timestep x_shape
  let sqrt_alpha := Diffusion.extract d.sqrt_alphas timestep x_shape
  let sqrt_one_minus_alpha_bar :=
    Diffusion.extract d.sqrt_one_minus_alpha_bars timestep x_shape
  let sqrt_beta := Diffusion.extract d.sqrt_betas timestep x_shape
  fun n c h w =>
    clampR
      (1 / bval sqrt_alpha n *
          (x_t n c h w - (1 - bval alpha n) / bval sqrt_one_minus_alpha_bar n *
            epsilon_pred n c h w) +
        bval sqrt_beta n * z n c h w)
      (-1) 1

/-! ## SSIM loss

The SSIM component works on `[N, 1, H, W]` batches (`self.channel = 1`, a
single convolution group), so an image batch is modelled as
`ℕ → ℕ → ℕ → ℕ → ℝ` restricted to channel `0`, i.e. `ℕ → ℕ → ℕ → ℝ`
(sample, row, column).  Tensor precision and device placement are modelled
as abstract tags on the cached kernel; `.to(dtype)` / `.to(device)` update
the tag and (in exact arithmetic) keep the values. -/

/-- Tensor numeric precisions relevant to mixed-precision training. -/
inductive DType
  | float32
  | float16
  | float64
deriving DecidableEq

/-- Tensor device placements. -/
inductive Device
  | cpu
  | cuda
deriving DecidableEq

/-- A 2-D smoothing kernel tensor: precision tag, device tag and values. -/
structure Kernel where
  dtype : DType
  device : Device
  vals : ℕ → ℕ → ℝ

/-- Model of `kernel.to(dtype)`: conversion to a precision (values kept, tag updated). -/
def Kernel.toDType (k : Kernel) (dt : DType) : Kernel :=
  { k with dtype := dt }

/-- Model of `kernel.to(device)`: conversion to a device (values kept, tag updated). -/
def Kernel.toDevice (k : Kernel) (dev : Device) : Kernel :=
  { k with device := dev }

/-- The unnormalized 1-D Gaussian `exp(-coords[i]^2 / (2 sigma^2))` with
`coords[i] = i - (size - 1) / 2` (source lines 16-17). -/
def gaussian_raw (size : ℕ) (sigma : ℝ) (i : ℕ) : ℝ :=
  Real.exp (-((i : ℝ) - ((size : ℝ) - 1) / 2) ^ 2 / (2 * sigma ^ 2))

/-- Model of `gaussian_window(size, sigma)` (source lines 14-19): the 1-D Gaussian
normalized so its entries sum to 1. -/
def gaussian_window (size : ℕ) (sigma : ℝ) (i : ℕ) : ℝ :=
  gaussian_raw size sigma i / ∑ j in Finset.range size, gaussian_raw size sigma j

/-- Model of `create_window(window_size, sigma, channel)` (source lines 21-26): the
outer product of the 1-D Gaussian with itself, viewed `[1, 1, ws, ws]` and
expanded along the (identical) channel dimension.  Fresh tensors are
float32 on the cpu. -/
def create_window (window_size : ℕ) (sigma : ℝ) (channel : ℕ) : Kernel :=
  { dtype := DType.float32
    device := Device.cpu
    vals := fun a b => gaussian_window window_size sigma a * gaussian_window window_size sigma b }

/-- The `SSIMLoss` module state (source lines 28-34). -/
structure SSIMLoss where
  window_size : ℕ
  sigma : ℝ
  channel : ℕ
  window : Kernel

/-- Model of `SSIMLoss.__init__(window_size=11, sigma=1.5)` (source lines 29-34). -/
def SSIMLoss.init (window_size : ℕ) (sigma : ℝ) : SSIMLoss :=
  { window_size := window_size
    sigma := sigma
    channel := 1
    window := create_window window_size sigma 1 }

/-- Reading an `H × W` image with zero padding outside its bounds. -/
def padRead (H W : ℕ) (img : ℕ → ℕ → ℝ) (i j : ℤ) : ℝ :=
  if 0 ≤ i ∧ i < (H : ℤ) ∧ 0 ≤ j ∧ j < (W : ℤ) then img i.toNat j.toNat else 0

/-- Model of `F.conv2d(img, w, padding=p)` on a single-channel `H × W` image with a
`ws × ws` kernel: cross-correlation with zero padding `p`, output pixel
`(i, j)` for `i < H + 2p + 1 - ws`, `j < W + 2p + 1 - ws`. -/
def conv2d (ws p H W : ℕ) (w : ℕ → ℕ → ℝ) (img : ℕ → ℕ → ℝ) (i j : ℕ) : ℝ :=
  ∑ a in Finset.range ws, ∑ b in Finset.range ws,
    w a b * padRead H W img ((i : ℤ) + a - p) ((j : ℤ) + b - p)

/-- Local mean `mu = conv2d(img, window, padding=window_size // 2)`
(source lines 40-41). -/
def ssim_mu (ws : ℕ) (w : ℕ → ℕ → ℝ) (H W : ℕ) (img : ℕ → ℕ → ℝ) (i j : ℕ) : ℝ :=
  conv2d ws (ws / 2) H W w img i j

/-- Local variance `conv2d(img * img, window, ...) - mu^2`
(source lines 42-43). -/
def ssim_sigma_sq (ws : ℕ) (w : ℕ → ℕ → ℝ) (H W : ℕ) (img : ℕ → ℕ → ℝ) (i j : ℕ) : ℝ :=
  conv2d ws (ws / 2) H W w (fun a b => img a b * img a b) i j - ssim_mu ws w H W img i j ^ 2

/-- Local covariance `conv2d(img1 * img2, window, ...) - mu1 * mu2`
(source line 44). -/
def ssim_sigma12 (ws : ℕ) (w : ℕ → ℕ → ℝ) (H W : ℕ) (img1 img2 : ℕ → ℕ → ℝ) (i j : ℕ) : ℝ :=
  conv2d ws (ws / 2) H W w (fun a b => img1 a b * img2 a b) i j -
    ssim_mu ws w H W img1 i j * ssim_mu ws w H W img2 i j

/-- The per-pixel SSIM value before clamping (source lines 46-48), with
`C1 = 0.01^2` and `C2 = 0.03^2`. -/
def ssimMap (ws : ℕ) (w : ℕ → ℕ → ℝ) (H W : ℕ) (img1 img2 : ℕ → ℕ → ℝ) (i j : ℕ) : ℝ :=
  ((2 * ssim_mu ws w H W img1 i j * ssim_mu ws w H W img2 i j + 0.01 ^ 2) *
      (2 * ssim_sigma12 ws w H W img1 img2 i j + 0.03 ^ 2)) /
    ((ssim_mu ws w H W img1 i j ^ 2 + ssim_mu ws w H W img2 i j ^ 2 + 0.01 ^ 2) *
      (ssim_sigma_sq ws w H W img1 i j + ssim_sigma_sq ws w H W img2 i j + 0.03 ^ 2))

/-- Model of `SSIMLoss.forward(img1, img2)` (source lines 36-50) on `[N, 1, H, W]`
batches whose entries share the precision `dt` and device `dev`.  Line 38
reassigns `self.window` to the converted kernel, so the call returns the
scalar score together with the updated module state.  The score is the mean
over the batch and all output pixels of the `[0, 1]`-clamped SSIM map. -/
def SSIMLoss.forward (s : SSIMLoss) (N H W : ℕ) (img1 img2 : ℕ → ℕ → ℕ → ℝ)
    (dt : DType) (dev : Device) : ℝ × SSIMLoss :=
  let window := (s.window.toDType dt).toDevice dev
  let ws := s.window_size
  let Hout := H + 2 * (ws / 2) + 1 - ws
  let Wout := W + 2 * (ws / 2) + 1 - ws
  let score :=
    (∑ n in Finset.range N, ∑ i in Finset.range Hout, ∑ j in Finset.range Wout,
        clampR (ssimMap ws window.vals H W (img1 n) (img2 n) i j) 0 1) /
      ((N : ℝ) * Hout * Wout)
  (score, { s with window := window })

/-! ## Concrete instances used to exercise the theorems -/

/-- A concrete stand-in denoiser network: the identity on the image batch. -/
def demoModel : Img → List ℕ → Img := fun x _ => x

/-- A concrete two-step schedule with valid hyperparameters. -/
def demoDiffusion : Diffusion := Diffusion.init demoModel (1/4) (1/2) 2

/-- A denoiser network that always returns the all-one batch (the test double
whose prediction equals a recorded all-one noise draw). -/
def cexModel : Img → List ℕ → Img := fun _ _ => onesImg

/-- A concrete two-step schedule, `beta = [3/4, 15/16]`, whose square roots
stay rational enough to evaluate: `alphas = [1/4, 1/16]`,
`alpha_bars = [1/4, 1/64]`. -/
def cexDiffusion : Diffusion := Diffusion.init cexModel (3/4) (15/16) 2

/-- The noisy batch obtained by corrupting the all-zero image at timestep 1
with the all-one noise draw. -/
def cexNoisy : Img :=
  (cexDiffusion.make_noisy zerosImg (List.replicate 1 1) onesImg [1, 1, 4, 4]).1

end

/-! ## List-level helper lemmas -/

theorem getD_map_of_lt {α β : Type} (l : List α) (f : α → β) (n : ℕ) (d : β) (d' : α)
    (h : n < l.length) : (l.map f).getD n d = f (l.getD n d') := by
  rw [List.getD_eq_getElem?_getD, List.getD_eq_getElem?_getD, List.getElem?_map,
    List.getElem?_eq_getElem h]
  rfl

theorem getD_replicate_of_lt {α : Type} (N n : ℕ) (x d : α) (h : n < N) :
    (List.replicate N x).getD n d = x := by
  rw [List.getD_eq_getElem?_getD, List.getElem?_replicate, if_pos h]
  rfl

theorem cumprod_length (l : List ℝ) : (cumprod l).length = l.length := by
  induction l with
  | nil => rfl
  | cons a l ih => simp [cumprod, ih]

theorem linspace_length (a b : ℝ) (n : ℕ) : (linspace a b n).length = n := by
  unfold linspace
  split
  · simp [*]
  · rw [List.length_map, List.length_range]

theorem getD_eq_getElem_of_lt {α : Type} (l : List α) (n : ℕ) (d : α) (h : n < l.length) :
    l.getD n d = l[n] := by
  rw [List.getD_eq_getElem?_getD, List.getElem?_eq_getElem h]
  rfl

theorem mem_linspace {a b : ℝ} (hab : a ≤ b) (n : ℕ) :
    ∀ x ∈ linspace a b n, a ≤ x ∧ x ≤ b := by
  intro x hx
  unfold linspace at hx
  split at hx
  · rw [List.mem_singleton] at hx
    subst hx
    exact ⟨le_refl _, hab⟩
  · rename_i hn1
    obtain ⟨i, hi, rfl⟩ := List.mem_map.1 hx
    have hi' : i < n := List.mem_range.1 hi
    have hn2 : 2 ≤ n := by omega
    have hpos : (0 : ℝ) < (n : ℝ) - 1 := by
      have h2 : (2 : ℝ) ≤ (n : ℝ) := by exact_mod_cast hn2
      linarith
    have hstep0 : 0 ≤ (i : ℝ) * (b - a) / ((n : ℝ) - 1) :=
      div_nonneg (mul_nonneg (Nat.cast_nonneg i) (by linarith)) (le_of_lt hpos)
    have hile : (i : ℝ) ≤ (n : ℝ) - 1 := by
      have hcast : (i : ℝ) + 1 ≤ (n : ℝ) := by exact_mod_cast hi'
      linarith
    have hstep1 : (i : ℝ) * (b - a) / ((n : ℝ) - 1) ≤ b - a := by
      rw [div_le_iff₀ hpos]
      calc (i : ℝ) * (b - a) ≤ ((n : ℝ) - 1) * (b - a) :=
            mul_le_mul_of_nonneg_right hile (by linarith)
        _ = (b - a) * ((n : ℝ) - 1) := by ring
    exact ⟨by linarith, by linarith⟩

theorem cumprod_mem (l : List ℝ) (hl : ∀ x ∈ l, 0 < x ∧ x ≤ 1) :
    ∀ y ∈ cumprod l, 0 < y ∧ y ≤ 1 := by
  induction l with
  | nil => intro y hy; simp [cumprod] at hy
  | cons a l ih =>
    intro y hy
    have ha := hl a (List.mem_cons_self a l)
    simp only [cumprod, List.mem_cons] at hy
    rcases hy with rfl | hy
    · exact ha
    · obtain ⟨z, hz, rfl⟩ := List.mem_map.1 hy
      have hz' := ih (fun x hx => hl x (List.mem_cons_of_mem a hx)) z hz
      exact ⟨mul_pos ha.1 hz'.1, mul_le_one₀ ha.2 (le_of_lt hz'.1) hz'.2⟩

theorem bval_extract (a : List ℝ) (ts : List ℕ) (sh : List ℕ) (n : ℕ)
    (hn : n < ts.length) :
    bval (Diffusion.extract a ts sh) n = a.getD (ts.getD n 0) 0 :=
  getD_map_of_lt ts (fun i => a.getD i 0) n 0 0 hn

theorem bval_extract_replicate (a : List ℝ) (N t : ℕ) (sh : List ℕ) (n : ℕ)
    (hn : n < N) :
    bval (Diffusion.extract a (List.replicate N t) sh) n = a.getD t 0 := by
  rw [bval_extract a _ sh n (by simpa using hn), getD_replicate_of_lt N n t 0 hn]

theorem make_noisy_eval (d : Diffusion) (x : Img) (ts : List ℕ) (ε : Img)
    (sh : List ℕ) (n c h w : ℕ) (hn : n < ts.length) :
    (d.make_noisy x ts ε sh).1 n c h w =
      x n c h w * d.sqrt_alpha_bars.getD (ts.getD n 0) 0 +
        ε n c h w * d.sqrt_one_minus_alpha_bars.getD (ts.getD n 0) 0 := by
  simp only [Diffusion.make_noisy]
  rw [bval_extract _ _ _ _ hn, bval_extract _ _ _ _ hn]

theorem denoise_at_t_eval (d : Diffusion) (x : Img) (N t : ℕ) (zdraw : Img)
    (sh : List ℕ) (n c h w : ℕ) (hn : n < N) :
    d.denoise_at_t x (List.replicate N t) t zdraw sh n c h w =
      clampR
        (1 / d.sqrt_alphas.getD t 0 *
            (x n c h w - (1 - d.alphas.getD t 0) / d.sqrt_one_minus_alpha_bars.getD t 0 *
              d.model x (List.replicate N t) n c h w) +
          d.sqrt_betas.getD t 0 * zLike t zdraw n c h w)
        (-1) 1 := by
  simp only [Diffusion.denoise_at_t]
  rw [bval_extract_replicate _ _ _ _ _ hn, bval_extract_replicate _ _ _ _ _ hn,
    bval_extract_replicate _ _ _ _ _ hn, bval_extract_replicate _ _ _ _ _ hn]

theorem linspace_getD_zero (a b : ℝ) (n : ℕ) (hn : 1 ≤ n) :
    (linspace a b n).getD 0 0 = a := by
  unfold linspace
  split
  · rfl
  · rename_i h1
    have hlt : 0 < ((List.range n).map
        (fun i : ℕ => a + (i : ℝ) * (b - a) / ((n : ℝ) - 1))).length := by
      rw [List.length_map, List.length_range]; omega
    rw [getD_eq_getElem_of_lt _ 0 0 hlt, List.getElem_map]
    simp

theorem cumprod_getD_zero (l : List ℝ) (h : l ≠ []) :
    (cumprod l).getD 0 0 = l.getD 0 0 := by
  cases l with
  | nil => exact absurd rfl h
  | cons a l => rfl

/-- Entry 0 of the `alphas` array of a freshly constructed schedule is
`1 - beta_min`, and likewise for the derived arrays. -/
theorem init_getD_zero (m : Img → List ℕ → Img) (b1 bT : ℝ) (T : ℕ) (hT : 1 ≤ T) :
    (Diffusion.init m b1 bT T).alphas.getD 0 0 = 1 - b1 ∧
    (Diffusion.init m b1 bT T).sqrt_alphas.getD 0 0 = Real.sqrt (1 - b1) ∧
    (Diffusion.init m b1 bT T).sqrt_alpha_bars.getD 0 0 = Real.sqrt (1 - b1) ∧
    (Diffusion.init m b1 bT T).sqrt_one_minus_alpha_bars.getD 0 0 =
      Real.sqrt (1 - (1 - b1)) := by
  have hblen : 0 < (linspace b1 bT T).length := by rw [linspace_length]; omega
  have halen : 0 < ((linspace b1 bT T).map (fun b => 1 - b)).length := by
    rw [List.length_map]; exact hblen
  have hane : ((linspace b1 bT T).map (fun b => 1 - b)) ≠ [] :=
    List.ne_nil_of_length_pos halen
  have hclen : 0 < (cumprod ((linspace b1 bT T).map (fun b => 1 - b))).length := by
    rw [cumprod_length]; exact halen
  have ha : ((linspace b1 bT T).map (fun b => 1 - b)).getD 0 0 = 1 - b1 := by
    rw [getD_map_of_lt _ _ 0 0 0 hblen, linspace_getD_zero b1 bT T hT]
  have hc : (cumprod ((linspace b1 bT T).map (fun b => 1 - b))).getD 0 0 = 1 - b1 := by
    rw [cumprod_getD_zero _ hane, ha]
  simp only [Diffusion.init]
  refine ⟨ha, ?_, ?_, ?_⟩
  · rw [getD_map_of_lt _ Real.sqrt 0 0 0 halen, ha]
  · rw [getD_map_of_lt _ Real.sqrt 0 0 0 hclen, hc]
  · rw [getD_map_of_lt _ (fun x => Real.sqrt (1 - x)) 0 0 0 hclen, hc]

/-- The concrete beta schedule of `cexDiffusion`. -/
theorem cex_betas : linspace ((3 : ℝ)/4) (15/16) 2 = [3/4, 15/16] := by
  unfold linspace
  norm_num [List.range_succ]

theorem cex_alphas_getD : cexDiffusion.alphas.getD 1 0 = 1/16 := by
  simp only [cexDiffusion, Diffusion.init]
  rw [cex_betas]
  norm_num [List.getD]

theorem cex_sqrt_alphas_getD : cexDiffusion.sqrt_alphas.getD 1 0 = Real.sqrt (1/16) := by
  simp only [cexDiffusion, Diffusion.init]
  rw [cex_betas]
  norm_num [List.getD]

theorem cex_sab_getD : cexDiffusion.sqrt_alpha_bars.getD 1 0 = Real.sqrt (1/64) := by
  simp only [cexDiffusion, Diffusion.init]
  rw [cex_betas]
  norm_num [cumprod, List.getD]

theorem cex_somab_getD :
    cexDiffusion.sqrt_one_minus_alpha_bars.getD 1 0 = Real.sqrt (63/64) := by
  simp only [cexDiffusion, Diffusion.init]
  rw [cex_betas]
  norm_num [cumprod, List.getD]

/-- The corrupted all-zero image at timestep 1 carries exactly
`sqrt(1 - alpha_bar[1])` noise at every position. -/
theorem cexNoisy_val : cexNoisy 0 0 0 0 = Real.sqrt (63/64) := by
  unfold cexNoisy
  rw [make_noisy_eval cexDiffusion zerosImg (List.replicate 1 1) onesImg
      [1, 1, 4, 4] 0 0 0 0 (by decide),
    getD_replicate_of_lt 1 0 1 0 (by decide), cex_sab_getD, cex_somab_getD]
  simp [zerosImg, onesImg]

/-! ## SSIM helper lemmas -/

theorem gaussian_raw_pos (size : ℕ) (sigma : ℝ) (i : ℕ) : 0 < gaussian_raw size sigma i :=
  Real.exp_pos _

theorem gaussian_window_nonneg (size : ℕ) (sigma : ℝ) (i : ℕ) :
    0 ≤ gaussian_window size sigma i := by
  unfold gaussian_window
  exact div_nonneg (gaussian_raw_pos size sigma i).le
    (Finset.sum_nonneg fun j _ => (gaussian_raw_pos size sigma j).le)

theorem gaussian_window_sum_le_one (size : ℕ) (sigma : ℝ) :
    ∑ i in Finset.range size, gaussian_window size sigma i ≤ 1 := by
  unfold gaussian_window
  rw [← Finset.sum_div]
  rcases eq_or_ne (∑ j in Finset.range size, gaussian_raw size sigma j) 0 with h | h
  · rw [h, div_zero]
    norm_num
  · rw [div_self h]

theorem create_window_vals_nonneg (ws : ℕ) (sigma : ℝ) (a b : ℕ) :
    0 ≤ (create_window ws sigma 1).vals a b :=
  mul_nonneg (gaussian_window_nonneg ws sigma a) (gaussian_window_nonneg ws sigma b)

theorem create_window_vals_sum_le_one (ws : ℕ) (sigma : ℝ) :
    ∑ a in Finset.range ws, ∑ b in Finset.range ws, (create_window ws sigma 1).vals a b ≤ 1 := by
  show ∑ a in Finset.range ws, ∑ b in Finset.range ws,
      gaussian_window ws sigma a * gaussian_window ws sigma b ≤ 1
  rw [← Finset.sum_mul_sum]
  exact mul_le_one₀ (gaussian_window_sum_le_one ws sigma)
    (Finset.sum_nonneg fun i _ => gaussian_window_nonneg ws sigma i)
    (gaussian_window_sum_le_one ws sigma)

/-- Cauchy-Schwarz for subprobability weights: a weighted mean's square is at
most the weighted mean of squares. -/
theorem weighted_sq_le {ι : Type} (s : Finset ι) (w y : ι → ℝ)
    (hw : ∀ i ∈ s, 0 ≤ w i) (h1 : ∑ i in s, w i ≤ 1) :
    (∑ i in s, w i * y i) ^ 2 ≤ ∑ i in s, w i * y i ^ 2 := by
  have hcs := Finset.sum_mul_sq_le_sq_mul_sq s (fun i => Real.sqrt (w i))
    (fun i => Real.sqrt (w i) * y i)
  have e1 : ∀ i ∈ s, Real.sqrt (w i) * (Real.sqrt (w i) * y i) = w i * y i := by
    intro i hi
    rw [← mul_assoc, Real.mul_self_sqrt (hw i hi)]
  have e2 : ∀ i ∈ s, Real.sqrt (w i) ^ 2 = w i := fun i hi => Real.sq_sqrt (hw i hi)
  have e3 : ∀ i ∈ s, (Real.sqrt (w i) * y i) ^ 2 = w i * y i ^ 2 := by
    intro i hi
    rw [mul_pow, Real.sq_sqrt (hw i hi)]
  rw [Finset.sum_congr rfl e1, Finset.sum_congr rfl e2, Finset.sum_congr rfl e3] at hcs
  calc (∑ i in s, w i * y i) ^ 2 ≤ (∑ i in s, w i) * ∑ i in s, w i * y i ^ 2 := hcs
    _ ≤ 1 * ∑ i in s, w i * y i ^ 2 := by
        apply mul_le_mul_of_nonneg_right h1
        exact Finset.sum_nonneg fun i hi => mul_nonneg (hw i hi) (sq_nonneg _)
    _ = ∑ i in s, w i * y i ^ 2 := one_mul _

theorem padRead_mul (H W : ℕ) (f g : ℕ → ℕ → ℝ) (i j : ℤ) :
    padRead H W (fun p q => f p q * g p q) i j = padRead H W f i j * padRead H W g i j := by
  unfold padRead
  split
  · rfl
  · norm_num

/-- The windowed variance is nonnegative whenever the kernel is a
subprobability weight. -/
theorem ssim_sigma_sq_nonneg (ws : ℕ) (w : ℕ → ℕ → ℝ) (H W : ℕ) (img : ℕ → ℕ → ℝ)
    (i j : ℕ) (hw : ∀ a b, 0 ≤ w a b)
    (hsum : ∑ a in Finset.range ws, ∑ b in Finset.range ws, w a b ≤ 1) :
    0 ≤ ssim_sigma_sq ws w H W img i j := by
  unfold ssim_sigma_sq ssim_mu conv2d
  rw [sub_nonneg]
  have hsq : ∑ a in Finset.range ws, ∑ b in Finset.range ws,
      w a b * padRead H W (fun p q => img p q * img p q)
        ((i : ℤ) + a - (ws / 2 : ℕ)) ((j : ℤ) + b - (ws / 2 : ℕ)) =
      ∑ a in Finset.range ws, ∑ b in Finset.range ws,
        w a b * padRead H W img ((i : ℤ) + a - (ws / 2 : ℕ)) ((j : ℤ) + b - (ws / 2 : ℕ)) ^ 2 := by
    refine Finset.sum_congr rfl fun a _ => Finset.sum_congr rfl fun b _ => ?_
    rw [padRead_mul, sq]
  rw [hsq, ← Finset.sum_product', ← Finset.sum_product']
  exact weighted_sq_le (Finset.range ws ×ˢ Finset.range ws)
    (fun p => w p.1 p.2)
    (fun p => padRead H W img ((i : ℤ) + p.1 - (ws / 2 : ℕ)) ((j : ℤ) + p.2 - (ws / 2 : ℕ)))
    (fun p _ => hw p.1 p.2)
    (by rw [Finset.sum_product']; exact hsum)

/-- With identical inputs the per-pixel SSIM value is exactly 1: numerator
and denominator coincide and are strictly positive. -/
theorem ssimMap_self (ws : ℕ) (w : ℕ → ℕ → ℝ) (H W : ℕ) (img : ℕ → ℕ → ℝ) (i j : ℕ)
    (hw : ∀ a b, 0 ≤ w a b)
    (hsum : ∑ a in Finset.range ws, ∑ b in Finset.range ws, w a b ≤ 1) :
    ssimMap ws w H W img img i j = 1 := by
  have hvar := ssim_sigma_sq_nonneg ws w H W img i j hw hsum
  unfold ssimMap
  have hcov : ssim_sigma12 ws w H W img img i j = ssim_sigma_sq ws w H W img i j := by
    unfold ssim_sigma12 ssim_sigma_sq
    rw [sq]
  rw [hcov]
  have hden1 : (0 : ℝ) < ssim_mu ws w H W img i j ^ 2 + ssim_mu ws w H W img i j ^ 2 +
      0.01 ^ 2 := by positivity
  have hden2 : (0 : ℝ) < ssim_sigma_sq ws w H W img i j + ssim_sigma_sq ws w H W img i j +
      0.03 ^ 2 := by
    have h3 : (0 : ℝ) < 0.03 ^ 2 := by norm_num
    linarith
  have hnum : 2 * ssim_mu ws w H W img i j * ssim_mu ws w H W img i j + 0.01 ^ 2 =
      ssim_mu ws w H W img i j ^ 2 + ssim_mu ws w H W img i j ^ 2 + 0.01 ^ 2 := by
    ring
  have hnum2 : 2 * ssim_sigma_sq ws w H W img i j + 0.03 ^ 2 =
      ssim_sigma_sq ws w H W img i j + ssim_sigma_sq ws w H W img i j + 0.03 ^ 2 := by
    ring
  rw [hnum, hnum2]
  exact div_self (ne_of_gt (mul_pos hden1 hden2))

theorem clampR_one : clampR 1 0 1 = 1 := by
  unfold clampR
  norm_num

/-! ## Claim theorems -/

/-- Claim C10: the two boundary rescaling operations are mutually inverse:
`reverse_scale_to_zero_to_one (scale_to_minus_one_to_one x) = x` and
`scale_to_minus_one_to_one (reverse_scale_to_zero_to_one x) = x` exactly, so
mapping between the `[0,1]` boundary and the internal `[-1,1]` range loses
no information. -/
theorem scale_roundtrip (x : Img) :
    Diffusion.reverse_scale_to_zero_to_one (Diffusion.scale_to_minus_one_to_one x) = x ∧
    Diffusion.scale_to_minus_one_to_one (Diffusion.reverse_scale_to_zero_to_one x) = x := by
  constructor <;> funext n c h w <;>
    simp only [Diffusion.reverse_scale_to_zero_to_one, Diffusion.scale_to_minus_one_to_one] <;>
    ring_nf

/-- Claim C5: `extract` applied to a length-`T` coefficient array with the
constant timestep batch `[k]*N` (`k < T`) and a target shape of rank
`r ≥ 1` returns a tensor of shape `[N, 1, ..., 1]` (rank `r`) whose data is
`coeffs[k]` replicated once per sample. -/
theorem extract_replicate_const (coeffs : List ℝ) (N k r : ℕ) (x_shape : List ℕ)
    (hk : k < coeffs.length) (hr : 1 ≤ r) (hxs : x_shape.length = r) :
    (Diffusion.extract coeffs (List.replicate N k) x_shape).shape
        = N :: List.replicate (r - 1) 1 ∧
    (Diffusion.extract coeffs (List.replicate N k) x_shape).data
        = List.replicate N coeffs[k] := by
  refine ⟨?_, ?_⟩
  · simp [Diffusion.extract, hxs]
  · simp only [Diffusion.extract, List.map_replicate]
    rw [List.getD_eq_getElem?_getD, List.getElem?_eq_getElem hk]
    rfl

/-- Witness for C5: `extract([5,7], [1,1,1], rank-4 shape)` has shape
`[3,1,1,1]` and data `[7,7,7]`. -/
theorem extract_replicate_const_spec :
    (Diffusion.extract [(5 : ℝ), 7] (List.replicate 3 1) [3, 1, 28, 28]).shape
        = [3, 1, 1, 1] ∧
    (Diffusion.extract [(5 : ℝ), 7] (List.replicate 3 1) [3, 1, 28, 28]).data
        = [(7 : ℝ), 7, 7] := by
  have h := extract_replicate_const [(5 : ℝ), 7] 3 1 4 [3, 1, 28, 28]
    (by decide) (by decide) (by decide)
  exact ⟨h.1.trans (by decide), h.2.trans (by simp)⟩

/-- Claim C1: `make_noisy` returns the pair `(noisy, epsilon)` where
`epsilon` is the injected per-element Gaussian draw and, for every sample
`n` with timestep `t[n]` and every position, `noisy = x * sqrt_alpha_bar[t[n]]
+ epsilon * sqrt_one_minus_alpha_bar[t[n]]`, the coefficients being extracted
per sample and broadcast across the image. -/
theorem make_noisy_formula (d : Diffusion) (x : Img) (ts : List ℕ) (ε : Img)
    (sh : List ℕ) (n c h w : ℕ) (hn : n < ts.length) :
    (d.make_noisy x ts ε sh).2 = ε ∧
    (d.make_noisy x ts ε sh).1 n c h w =
      x n c h w * d.sqrt_alpha_bars.getD (ts.getD n 0) 0 +
        ε n c h w * d.sqrt_one_minus_alpha_bars.getD (ts.getD n 0) 0 :=
  ⟨rfl, make_noisy_eval d x ts ε sh n c h w hn⟩

/-- Witness for C1, at sample 1 of a two-sample batch with timesteps
`[0, 1]` on the demo schedule. -/
theorem make_noisy_formula_spec :
    (demoDiffusion.make_noisy onesImg [0, 1] onesImg [2, 1, 4, 4]).2 = onesImg ∧
    (demoDiffusion.make_noisy onesImg [0, 1] onesImg [2, 1, 4, 4]).1 1 0 2 3 =
      onesImg 1 0 2 3 * demoDiffusion.sqrt_alpha_bars.getD 1 0 +
        onesImg 1 0 2 3 * demoDiffusion.sqrt_one_minus_alpha_bars.getD 1 0 :=
  make_noisy_formula demoDiffusion onesImg [0, 1] onesImg [2, 1, 4, 4] 1 0 2 3 (by decide)

/-- Claim C2: one reverse-sampling transition at scalar timestep `t`
(timestep batch `[t]*N`) returns exactly
`clamp((1/sqrt_alpha[t]) * (x - ((1 - alpha[t]) / sqrt_one_minus_alpha_bar[t])
* eps_pred) + sqrt_beta[t] * z, -1, 1)` at every position of every sample,
where `eps_pred` is the network's prediction and `z` the injected noise. -/
theorem denoise_at_t_formula (d : Diffusion) (x : Img) (N t : ℕ) (zdraw : Img)
    (sh : List ℕ) (n c h w : ℕ) (hn : n < N) :
    d.denoise_at_t x (List.replicate N t) t zdraw sh n c h w =
      clampR
        (1 / d.sqrt_alphas.getD t 0 *
            (x n c h w - (1 - d.alphas.getD t 0) / d.sqrt_one_minus_alpha_bars.getD t 0 *
              d.model x (List.replicate N t) n c h w) +
          d.sqrt_betas.getD t 0 * zLike t zdraw n c h w)
        (-1) 1 :=
  denoise_at_t_eval d x N t zdraw sh n c h w hn

/-- Witness for C2, at `t = 0` with a single-sample batch on the demo
schedule. -/
theorem denoise_at_t_formula_spec :
    demoDiffusion.denoise_at_t onesImg (List.replicate 1 0) 0 onesImg [1, 1, 4, 4] 0 0 0 0 =
      clampR
        (1 / demoDiffusion.sqrt_alphas.getD 0 0 *
            (onesImg 0 0 0 0 -
              (1 - demoDiffusion.alphas.getD 0 0) /
                demoDiffusion.sqrt_one_minus_alpha_bars.getD 0 0 *
              demoDiffusion.model onesImg (List.replicate 1 0) 0 0 0 0) +
          demoDiffusion.sqrt_betas.getD 0 0 * zLike 0 onesImg 0 0 0 0)
        (-1) 1 :=
  denoise_at_t_formula demoDiffusion onesImg 1 0 onesImg [1, 1, 4, 4] 0 0 0 0 (by decide)

/-- Claim C4: the injected noise `z` of a reverse transition is the Gaussian
draw exactly when `t > 1` and the all-zero tensor when `t ≤ 1` (i.e. at the
last two steps `t = 1` and `t = 0`), so those two transitions are
deterministic: they do not depend on the draw at all. -/
theorem denoise_noise_policy (d : Diffusion) (x : Img) (ts : List ℕ) (t : ℕ)
    (z1 z2 : Img) (sh : List ℕ) :
    (1 < t → zLike t z1 = z1) ∧
    (t ≤ 1 → zLike t z1 = zerosImg) ∧
    (t ≤ 1 → d.denoise_at_t x ts t z1 sh = d.denoise_at_t x ts t z2 sh) := by
  refine ⟨fun ht => ?_, fun ht => ?_, fun ht => ?_⟩
  · simp [zLike, ht]
  · simp [zLike, Nat.not_lt.2 ht]
  · have hz : zLike t z1 = zLike t z2 := by
      simp [zLike, Nat.not_lt.2 ht]
    simp only [Diffusion.denoise_at_t, hz]

/-- Witness for C4: at `t = 2` the draw is used, at `t = 1` it is zeroed,
and at `t = 1` the transition output is independent of the draw. -/
theorem denoise_noise_policy_spec :
    (zLike 2 onesImg = onesImg) ∧
    (zLike 1 onesImg = zerosImg) ∧
    (demoDiffusion.denoise_at_t onesImg [1, 1] 1 onesImg [2, 1, 4, 4] =
      demoDiffusion.denoise_at_t onesImg [1, 1] 1 zerosImg [2, 1, 4, 4]) :=
  ⟨(denoise_noise_policy demoDiffusion onesImg [1, 1] 2 onesImg zerosImg [2, 1, 4, 4]).1
      (by decide),
    (denoise_noise_policy demoDiffusion onesImg [1, 1] 1 onesImg zerosImg [2, 1, 4, 4]).2.1
      (by decide),
    (denoise_noise_policy demoDiffusion onesImg [1, 1] 1 onesImg zerosImg [2, 1, 4, 4]).2.2
      (by decide)⟩

/-- Counterexample for C7: with the violated constraint `beta_min < beta_max`
(`1/2 > 1/4`), schedule construction still succeeds — the constructor
performs no hyperparameter validation and raises no error. -/
theorem tryInit_no_validation :
    (Diffusion.tryInit demoModel (1/2) (1/4) 2).isOk = true ∧ ¬((1 : ℝ)/2 < 1/4) :=
  ⟨rfl, by norm_num⟩

/-- Claim C7 (amended): schedule construction never fails — the constructor
performs no validation, so every input (valid or not) deterministically
yields a schedule whose five coefficient arrays all have length `T`, with no
side effects. -/
theorem tryInit_total (m : Img → List ℕ → Img) (b1 bT : ℝ) (n : ℕ) :
    Diffusion.tryInit m b1 bT n = .ok (Diffusion.init m b1 bT n) ∧
    (Diffusion.init m b1 bT n).sqrt_betas.length = n ∧
    (Diffusion.init m b1 bT n).alphas.length = n ∧
    (Diffusion.init m b1 bT n).sqrt_alphas.length = n ∧
    (Diffusion.init m b1 bT n).sqrt_one_minus_alpha_bars.length = n ∧
    (Diffusion.init m b1 bT n).sqrt_alpha_bars.length = n := by
  refine ⟨rfl, ?_, ?_, ?_, ?_, ?_⟩ <;>
    simp [Diffusion.init, cumprod_length, linspace_length]

/-- Counterexample for C9: a call with half-precision inputs replaces the
cached smoothing kernel — the stored kernel after the call is not the
float32 instance built at construction. -/
theorem forward_mutates_window :
    ((SSIMLoss.init 11 (3/2)).forward 1 1 1 (fun _ _ _ => 0) (fun _ _ _ => 0)
        DType.float16 Device.cpu).2.window ≠ (SSIMLoss.init 11 (3/2)).window := by
  intro hEq
  have hdt := congrArg Kernel.dtype hEq
  simp [SSIMLoss.forward, SSIMLoss.init, create_window, Kernel.toDType,
    Kernel.toDevice] at hdt

/-- Claim C9 (amended): computing the SSIM score overwrites the cached
kernel with the converted copy: after any call the stored kernel carries the
inputs' precision and device tags (its values unchanged in exact
arithmetic), rather than remaining the instance built at construction; the
other module fields are untouched. -/
theorem forward_window_update (s : SSIMLoss) (N H W : ℕ) (img1 img2 : ℕ → ℕ → ℕ → ℝ)
    (dt : DType) (dev : Device) :
    ((s.forward N H W img1 img2 dt dev).2).window.vals = s.window.vals ∧
    ((s.forward N H W img1 img2 dt dev).2).window.dtype = dt ∧
    ((s.forward N H W img1 img2 dt dev).2).window.device = dev ∧
    ((s.forward N H W img1 img2 dt dev).2).window_size = s.window_size ∧
    ((s.forward N H W img1 img2 dt dev).2).sigma = s.sigma :=
  ⟨rfl, rfl, rfl, rfl, rfl⟩

/-- Claim C6: for every valid hyperparameter triple
(`0 < beta_min < beta_max < 1`, `T ≥ 1`) the constructed schedule satisfies
`sqrt_alpha_bar[t]^2 + sqrt_one_minus_alpha_bar[t]^2 = 1` exactly, for every
`t < T`. -/
theorem schedule_pythagorean (m : Img → List ℕ → Img) (b1 bT : ℝ) (T : ℕ)
    (h0 : 0 < b1) (h1 : b1 < bT) (h2 : bT < 1) (hT : 1 ≤ T) (t : ℕ) (ht : t < T) :
    (Diffusion.init m b1 bT T).sqrt_alpha_bars.getD t 0 ^ 2 +
      (Diffusion.init m b1 bT T).sqrt_one_minus_alpha_bars.getD t 0 ^ 2 = 1 := by
  have hablen : (cumprod ((linspace b1 bT T).map (fun b => 1 - b))).length = T := by
    rw [cumprod_length, List.length_map, linspace_length]
  have ht' : t < (cumprod ((linspace b1 bT T).map (fun b => 1 - b))).length := by
    rw [hablen]; exact ht
  have hmem : ∀ y ∈ (linspace b1 bT T).map (fun b => 1 - b), 0 < y ∧ y ≤ 1 := by
    intro y hy
    obtain ⟨β, hβ, rfl⟩ := List.mem_map.1 hy
    have hb := mem_linspace (le_of_lt h1) T β hβ
    exact ⟨by linarith [hb.2], by linarith [hb.1]⟩
  have hx : 0 < (cumprod ((linspace b1 bT T).map (fun b => 1 - b))).getD t 0 ∧
      (cumprod ((linspace b1 bT T).map (fun b => 1 - b))).getD t 0 ≤ 1 := by
    rw [getD_eq_getElem_of_lt _ t 0 ht']
    exact cumprod_mem _ hmem _ (List.getElem_mem ht')
  simp only [Diffusion.init]
  rw [getD_map_of_lt _ Real.sqrt t 0 0 ht',
    getD_map_of_lt _ (fun x => Real.sqrt (1 - x)) t 0 0 ht',
    Real.sq_sqrt hx.1.le, Real.sq_sqrt (by linarith [hx.2])]
  ring

/-- Witness for C6, on the demo schedule (`beta_min = 1/4`, `beta_max = 1/2`,
`T = 2`) at `t = 1`. -/
theorem schedule_pythagorean_spec :
    demoDiffusion.sqrt_alpha_bars.getD 1 0 ^ 2 +
      demoDiffusion.sqrt_one_minus_alpha_bars.getD 1 0 ^ 2 = 1 :=
  schedule_pythagorean demoModel (1/4) (1/2) 2 (by norm_num) (by norm_num)
    (by norm_num) (by norm_num) 1 (by norm_num)

/-- Counterexample for C3: on the schedule `beta = [3/4, 15/16]`, corrupting
the all-zero image (which lies in `[-1,1]`) at `t = 1` and running one
reverse step at `t = 1` with a network that returns exactly the recorded
all-one noise does not reproduce the original image: the result at pixel
`(0,0,0,0)` is strictly positive while the original is `0`.  The round-trip
identity claimed for every valid `t` therefore fails for `t ≥ 1`. -/
theorem roundtrip_fails_at_one :
    cexDiffusion.denoise_at_t cexNoisy (List.replicate 1 1) 1 zerosImg
      [1, 1, 4, 4] 0 0 0 0 ≠ zerosImg 0 0 0 0 := by
  rw [denoise_at_t_eval cexDiffusion cexNoisy 1 1 zerosImg [1, 1, 4, 4] 0 0 0 0
      (by decide),
    cex_alphas_getD, cex_sqrt_alphas_getD, cex_somab_getD, cexNoisy_val]
  have hmodel : cexDiffusion.model cexNoisy (List.replicate 1 1) 0 0 0 0 = 1 := rfl
  rw [hmodel]
  have hz : zLike 1 zerosImg 0 0 0 0 = 0 := rfl
  rw [hz, mul_zero, add_zero]
  apply ne_of_gt
  show (0 : ℝ) < _
  have hs : 0 < Real.sqrt (63/64) := Real.sqrt_pos.2 (by norm_num)
  have hss : Real.sqrt (63/64) * Real.sqrt (63/64) = 63/64 :=
    Real.mul_self_sqrt (by norm_num)
  have hinner : 0 < Real.sqrt (63/64) - (1 - 1/16) / Real.sqrt (63/64) * 1 := by
    rw [mul_one, sub_pos, div_lt_iff₀ hs, hss]
    norm_num
  have h16 : 0 < 1 / Real.sqrt (1/16) := by
    apply one_div_pos.2
    exact Real.sqrt_pos.2 (by norm_num)
  unfold clampR
  apply lt_min _ one_pos
  exact lt_of_lt_of_le (mul_pos h16 hinner) (le_max_left _ _)

/-- Claim C8: the SSIM score of any image batch compared with itself is
exactly 1: with identical inputs every per-pixel numerator and denominator
coincide, the clamped map is identically 1, and the mean over the nonempty
batch and spatial extent is 1, for every window size and sigma. -/
theorem ssim_self_eq_one (ws : ℕ) (sigma : ℝ) (N H W : ℕ) (img : ℕ → ℕ → ℕ → ℝ)
    (dt : DType) (dev : Device) (hN : 1 ≤ N) (hH : 1 ≤ H) (hW : 1 ≤ W) :
    ((SSIMLoss.init ws sigma).forward N H W img img dt dev).1 = 1 := by
  have hone : ∀ n ∈ Finset.range N, ∀ i ∈ Finset.range (H + 2 * (ws / 2) + 1 - ws),
      ∀ j ∈ Finset.range (W + 2 * (ws / 2) + 1 - ws),
      clampR (ssimMap ws (create_window ws sigma 1).vals H W (img n) (img n) i j) 0 1
        = 1 := by
    intro n _ i _ j _
    rw [ssimMap_self ws _ H W (img n) i j (create_window_vals_nonneg ws sigma)
        (create_window_vals_sum_le_one ws sigma), clampR_one]
  simp only [SSIMLoss.forward, SSIMLoss.init, Kernel.toDType, Kernel.toDevice]
  rw [Finset.sum_congr rfl fun n hn => Finset.sum_congr rfl fun i hi =>
    Finset.sum_congr rfl fun j hj => hone n hn i hi j hj]
  simp only [Finset.sum_const, Finset.card_range, nsmul_eq_mul, mul_one]
  have hHout : (0 : ℝ) < ((H + 2 * (ws / 2) + 1 - ws : ℕ) : ℝ) := by
    have hp : 0 < H + 2 * (ws / 2) + 1 - ws := by omega
    exact_mod_cast hp
  have hWout : (0 : ℝ) < ((W + 2 * (ws / 2) + 1 - ws : ℕ) : ℝ) := by
    have hp : 0 < W + 2 * (ws / 2) + 1 - ws := by omega
    exact_mod_cast hp
  have hN' : (0 : ℝ) < (N : ℝ) := by
    exact_mod_cast hN
  rw [div_eq_one_iff_eq (by positivity)]
  ring

/-- Witness for C8: the score of the all-zero `1 × 1 × 1` batch against
itself, with the default window size 11 and sigma 1.5, is 1. -/
theorem ssim_self_eq_one_spec :
    ((SSIMLoss.init 11 (3/2)).forward 1 1 1 (fun _ _ _ => 0) (fun _ _ _ => 0)
      DType.float32 Device.cpu).1 = 1 :=
  ssim_self_eq_one 11 (3/2) 1 1 1 (fun _ _ _ => 0) DType.float32 Device.cpu
    (by norm_num) (by norm_num) (by norm_num)

/-- Claim C3 (amended): the forward-then-one-reverse-step round trip holds at
`t = 0` (and the counterexample shows it fails for larger `t`): corrupting a
clean image with entries in `[-1,1]` at timestep 0 and running one reverse
step at timestep 0 with a network that returns exactly the recorded noise
reproduces the image exactly, for every valid schedule (`0 < beta_min < 1`,
`T ≥ 1`), every noise draw, and every sample of the batch. -/
theorem roundtrip_at_zero (m : Img → List ℕ → Img) (b1 bT : ℝ) (T N : ℕ)
    (x ε zdraw : Img) (sh : List ℕ) (n c h w : ℕ)
    (h0 : 0 < b1) (h1 : b1 < 1) (hT : 1 ≤ T) (hn : n < N)
    (hx1 : -1 ≤ x n c h w) (hx2 : x n c h w ≤ 1)
    (hm : (Diffusion.init m b1 bT T).model
        ((Diffusion.init m b1 bT T).make_noisy x (List.replicate N 0) ε sh).1
        (List.replicate N 0) n c h w = ε n c h w) :
    (Diffusion.init m b1 bT T).denoise_at_t
        ((Diffusion.init m b1 bT T).make_noisy x (List.replicate N 0) ε sh).1
        (List.replicate N 0) 0 zdraw sh n c h w = x n c h w := by
  obtain ⟨hα, hsa, hsab, hsomab⟩ := init_getD_zero m b1 bT T hT
  have hxt := make_noisy_eval (Diffusion.init m b1 bT T) x (List.replicate N 0) ε
    sh n c h w (by simpa using hn)
  rw [getD_replicate_of_lt N n 0 0 hn, hsab, hsomab] at hxt
  rw [denoise_at_t_eval _ _ N 0 zdraw sh n c h w hn, hm, hxt, hα, hsa, hsomab]
  have hz : zLike 0 zdraw n c h w = 0 := rfl
  rw [hz, mul_zero, add_zero]
  have hb1 : (1 : ℝ) - (1 - b1) = b1 := by ring
  rw [hb1, Real.div_sqrt]
  have hne : Real.sqrt (1 - b1) ≠ 0 := by
    rw [Real.sqrt_ne_zero']
    linarith
  have harg : 1 / Real.sqrt (1 - b1) *
      (x n c h w * Real.sqrt (1 - b1) + ε n c h w * Real.sqrt b1 -
        Real.sqrt b1 * ε n c h w) = x n c h w := by
    field_simp
    ring
  rw [harg]
  unfold clampR
  rw [max_eq_left hx1, min_eq_left hx2]

/-- Witness for the amended C3: on the schedule `beta = [3/4, 15/16]` with
the all-zero clean image and the all-one recorded noise, one reverse step at
`t = 0` returns the clean image. -/
theorem roundtrip_at_zero_spec :
    cexDiffusion.denoise_at_t
        (cexDiffusion.make_noisy zerosImg (List.replicate 1 0) onesImg [1, 1, 4, 4]).1
        (List.replicate 1 0) 0 zerosImg [1, 1, 4, 4] 0 0 0 0 = zerosImg 0 0 0 0 :=
  roundtrip_at_zero cexModel (3/4) (15/16) 2 1 zerosImg onesImg zerosImg
    [1, 1, 4, 4] 0 0 0 0 (by norm_num) (by norm_num) (by norm_num) (by norm_num)
    (by norm_num [zerosImg]) (by norm_num [zerosImg]) rfl

end DDPM
